import Mathlib

/-!
Verification of the entropy-source HIL contract (`kernel/src/hil/entropy.rs`).

The source file declares two trait pairs, `Entropy32`/`Client32` and
`Entropy8`/`Client8`, sharing a continuation enum `Continue`.  The traits
carry documented behavioural contracts (get/cancel return-value guarantees,
callback obligations, cancellation race semantics); no trait implementation
is present, so the protocol behaviour is modelled from the specification as
a labelled transition system, parametric in the entropy unit type, and the
claims are settled against that model.  The `Continue` enum and the
doc-comment example client are embedded directly from the source.
-/

namespace Entropy

/-- The continuation signal returned by the client delivery callback,
from `entropy.rs` lines 89-95: `More` means more randomness is required
(another callback requested), `Done` means no more randomness required. -/
inductive Continue where
  | More
  | Done
deriving DecidableEq, Repr

/-- Modelled from the spec: the external status code type
`returncode::ReturnCode` (the crate `returncode` is not under `src/`).
The spec requires at minimum the distinguishable outcomes success,
general failure, power-off failure, and cancellation. -/
inductive ReturnCode where
  | SUCCESS
  | FAIL
  | EOFF
  | ECANCEL
deriving DecidableEq, Repr

/-- Modelled from the spec: the protocol state of one source instance
(spec section 4.2), tracking the single outstanding acquisition:
`Idle` (no request outstanding), `Pending` (a `get()` succeeded and the
request is being served), `CancelRequested` (a `cancel()` failed and
exactly one terminal callback is still owed). -/
inductive PState where
  | Idle
  | Pending
  | CancelRequested
deriving DecidableEq, Repr

/-- Modelled from the spec: full model state of one source instance:
the protocol state plus the index of the next entropy unit of the
underlying generation order still to be delivered (used to state the
no-gap/no-reorder ordering contract). -/
structure MState where
  ps : PState
  next : Nat
deriving DecidableEq, Repr

/-- Modelled from the spec: the observable events of the protocol.
`getOk`/`getFail`/`getOff` are the three documented outcomes of `get()`
(SUCCESS / FAIL / EOFF, `entropy.rs` lines 102-113); `cancelOk` and
`cancelFail` the two documented outcomes of `cancel()` (lines 115-123);
`callback units status ret` a delivery of `entropy_available` handing the
client the unit list `units` and status `status`, with the client
returning the continuation signal `ret` (lines 132-152). -/
inductive Event (α : Type) where
  | getOk
  | getFail
  | getOff
  | cancelOk
  | cancelFail
  | callback (units : List α) (status : ReturnCode) (ret : Continue)
deriving DecidableEq, Repr

/-- The segment of the generation order `gen` of length `n` starting at
index `k`: the units a source generating the deterministic sequence `gen`
hands out as its `k`-th through `(k+n-1)`-th units. -/
def genSeg {α : Type} (gen : Nat → α) (k n : Nat) : List α :=
  (List.range n).map (fun i => gen (k + i))

/-- Modelled from the spec: the transition function of the protocol state
machine (spec section 4.2 and the trait contracts of `entropy.rs`), for a
source generating the deterministic unit sequence `gen`.  `none` means the
event cannot occur in that state.  From `Idle`: a successful `get` starts
an acquisition, failed `get` outcomes and the no-op successful `cancel`
leave the source idle with no callback, and a failed `cancel` cannot occur.
From `Pending`: a successful `cancel` resolves the request silently, a
failed `cancel` moves to `CancelRequested`, and a delivery callback hands
out the next units of the generation order (at least one newly available
unit), staying `Pending` on `More` and resolving to `Idle` on `Done`.
From `CancelRequested`: the only possible event is the guaranteed final
delivery callback, whose status must be `ECANCEL` and which may still carry
trailing units of the generation order; it resolves to `Idle` regardless of
the returned continuation signal.  Concurrent `get` calls while a request
is outstanding are left unmodelled (the spec mandates no policy for them).
-/
def step {α : Type} [DecidableEq α] (gen : Nat → α) (s : MState) :
    Event α → Option MState :=
  fun e =>
    match s.ps, e with
    | PState.Idle, Event.getOk => some ⟨PState.Pending, s.next⟩
    | PState.Idle, Event.getFail => some ⟨PState.Idle, s.next⟩
    | PState.Idle, Event.getOff => some ⟨PState.Idle, s.next⟩
    | PState.Idle, Event.cancelOk => some ⟨PState.Idle, s.next⟩
    | PState.Pending, Event.cancelOk => some ⟨PState.Idle, s.next⟩
    | PState.Pending, Event.cancelFail => some ⟨PState.CancelRequested, s.next⟩
    | PState.Pending, Event.callback units _ ret =>
        if units ≠ [] ∧ units = genSeg gen s.next units.length then
          some ⟨(match ret with
                 | Continue.More => PState.Pending
                 | Continue.Done => PState.Idle), s.next + units.length⟩
        else none
    | PState.CancelRequested, Event.callback units status _ =>
        if status = ReturnCode.ECANCEL ∧ units = genSeg gen s.next units.length then
          some ⟨PState.Idle, s.next + units.length⟩
        else none
    | _, _ => none

/-- Run a list of events through the protocol state machine from a given
state, failing if any event is impossible in its state. -/
def run {α : Type} [DecidableEq α] (gen : Nat → α) (s : MState) :
    List (Event α) → Option MState
  | [] => some s
  | e :: tr => (step gen s e).bind (fun s₁ => run gen s₁ tr)

/-- Whether an event is a delivery callback. -/
def isCallback {α : Type} : Event α → Bool
  | Event.callback _ _ _ => true
  | _ => false

/-- The number of delivery callbacks in a trace. -/
def callbackCount {α : Type} : List (Event α) → Nat
  | [] => 0
  | e :: tr => (if isCallback e then 1 else 0) + callbackCount tr

/-- The concatenation, in order, of all unit lists delivered by the
callbacks of a trace: what the consumer observes across consecutive
delivery callbacks. -/
def deliveredUnits {α : Type} : List (Event α) → List α
  | [] => []
  | Event.callback units _ _ :: tr => units ++ deliveredUnits tr
  | _ :: tr => deliveredUnits tr

/-- The outcome `get()` reports when the event is one of its three
outcomes (`entropy.rs` lines 104-112): SUCCESS, FAIL or EOFF. -/
def getOutcome {α : Type} : Event α → Option ReturnCode
  | Event.getOk => some ReturnCode.SUCCESS
  | Event.getFail => some ReturnCode.FAIL
  | Event.getOff => some ReturnCode.EOFF
  | _ => none

/-- Modelled from the spec: the number of logical acquisitions a source in
a given protocol state is serving; the protocol allows at most one
outstanding request per source instance at a time. -/
def outstandingRequests : PState → Nat
  | PState.Idle => 0
  | PState.Pending => 1
  | PState.CancelRequested => 1

/-- The entropy unit of the 32-bit variant (`u32`). -/
def U32 : Type := Fin (2 ^ 32)

/-- The entropy unit of the 8-bit variant (`u8`). -/
def U8 : Type := Fin (2 ^ 8)

instance : DecidableEq U32 := fun a b => instDecidableEqFin _ a b

instance : DecidableEq U8 := fun a b => instDecidableEqFin _ a b

/-- The doc-comment example client of `entropy.rs` (lines 68-83):
`EntropyTest::entropy_available` calls `entropy.next()` once; on `Some val`
it prints the value, re-arms the alarm and returns `Continue::Done`; on
`None` it returns `Continue::More`.  The iterator is modelled as the list
of values it has yet to yield; the result is the returned continuation
signal paired with the iterator's remaining values (printing and alarm
re-arming are external side effects outside the protocol).  The status
argument is ignored by the example, as in the source. -/
def EntropyTest.entropy_available (entropy : List U32) (_error : ReturnCode) :
    Continue × List U32 :=
  match entropy with
  | [] => (Continue.More, [])
  | _ :: rest => (Continue.Done, rest)

/-- Translate the events of one width variant into the events of the other
by translating each delivered entropy unit; the event structure (get,
cancel, callback shape, status, continuation signal) is untouched. -/
def Event.map {α β : Type} (f : α → β) : Event α → Event β
  | Event.getOk => Event.getOk
  | Event.getFail => Event.getFail
  | Event.getOff => Event.getOff
  | Event.cancelOk => Event.cancelOk
  | Event.cancelFail => Event.cancelFail
  | Event.callback units status ret => Event.callback (units.map f) status ret

theorem genSeg_nil {α : Type} (gen : Nat → α) (k : Nat) : genSeg gen k 0 = [] := by
  simp [genSeg]

theorem genSeg_append {α : Type} (gen : Nat → α) (k n m : Nat) :
    genSeg gen k n ++ genSeg gen (k + n) m = genSeg gen k (n + m) := by
  simp only [genSeg, List.range_add, List.map_append, List.map_map]
  have hf : ((fun i => gen (k + i)) ∘ fun x => n + x) = fun i => gen (k + n + i) := by
    funext i
    simp [Function.comp, Nat.add_assoc]
  rw [hf]

section Lemmas

variable {α : Type} [DecidableEq α] {gen : Nat → α}

theorem run_cons {s : MState} {e : Event α} {tr : List (Event α)} :
    run gen s (e :: tr) = (step gen s e).bind (fun s₁ => run gen s₁ tr) := rfl

theorem step_idle_inv {s s₁ : MState} {e : Event α} (hps : s.ps = PState.Idle)
    (hs : step gen s e = some s₁) :
    (e = Event.getOk ∧ s₁ = ⟨PState.Pending, s.next⟩) ∨
      ((e = Event.getFail ∨ e = Event.getOff ∨ e = Event.cancelOk) ∧
        s₁ = ⟨PState.Idle, s.next⟩) := by
  cases e <;> simp [step, hps] at hs <;> simp [hs]

theorem step_pending_inv {s s₁ : MState} {e : Event α} (hps : s.ps = PState.Pending)
    (hs : step gen s e = some s₁) :
    (e = Event.cancelOk ∧ s₁ = ⟨PState.Idle, s.next⟩) ∨
      (e = Event.cancelFail ∧ s₁ = ⟨PState.CancelRequested, s.next⟩) ∨
      (∃ units status ret, e = Event.callback units status ret ∧
        units ≠ [] ∧ units = genSeg gen s.next units.length ∧
        s₁.next = s.next + units.length ∧
        s₁.ps = (match ret with
                 | Continue.More => PState.Pending
                 | Continue.Done => PState.Idle)) := by
  cases e with
  | callback units status ret =>
    refine Or.inr (Or.inr ⟨units, status, ret, rfl, ?_⟩)
    simp only [step, hps] at hs
    by_cases h : units ≠ [] ∧ units = genSeg gen s.next units.length
    · rw [if_pos h] at hs
      cases hs
      exact ⟨h.1, h.2, rfl, rfl⟩
    · rw [if_neg h] at hs
      exact absurd hs (by simp)
  | getOk => simp [step, hps] at hs
  | getFail => simp [step, hps] at hs
  | getOff => simp [step, hps] at hs
  | cancelOk => simp [step, hps] at hs; simp [hs]
  | cancelFail => simp [step, hps] at hs; simp [hs]

theorem step_cr_inv {s s₁ : MState} {e : Event α}
    (hps : s.ps = PState.CancelRequested) (hs : step gen s e = some s₁) :
    ∃ units ret, e = Event.callback units ReturnCode.ECANCEL ret ∧
      units = genSeg gen s.next units.length ∧
      s₁ = ⟨PState.Idle, s.next + units.length⟩ := by
  cases e with
  | callback units status ret =>
    refine ⟨units, ret, ?_⟩
    simp only [step, hps] at hs
    by_cases h : status = ReturnCode.ECANCEL ∧ units = genSeg gen s.next units.length
    · rw [if_pos h] at hs
      cases hs
      exact ⟨by rw [h.1], h.2, rfl⟩
    · rw [if_neg h] at hs
      exact absurd hs (by simp)
  | getOk => simp [step, hps] at hs
  | getFail => simp [step, hps] at hs
  | getOff => simp [step, hps] at hs
  | cancelOk => simp [step, hps] at hs
  | cancelFail => simp [step, hps] at hs

theorem step_enters_cr {s s₁ : MState} {e : Event α} (hs : step gen s e = some s₁)
    (hcr : s₁.ps = PState.CancelRequested) :
    e = Event.cancelFail ∧ s.ps = PState.Pending := by
  cases hp : s.ps with
  | Idle =>
    rcases step_idle_inv hp hs with ⟨_, h⟩ | ⟨_, h⟩ <;> subst h <;> simp at hcr
  | Pending =>
    rcases step_pending_inv hp hs with ⟨_, h⟩ | ⟨he, h⟩ |
      ⟨units, status, ret, he, _, _, _, hps₁⟩
    · subst h; simp at hcr
    · exact ⟨he, rfl⟩
    · rw [hps₁] at hcr
      cases ret <;> simp at hcr
  | CancelRequested =>
    rcases step_cr_inv hp hs with ⟨units, ret, _, _, h⟩
    subst h; simp at hcr

theorem step_next_mono {s s₁ : MState} {e : Event α} (hs : step gen s e = some s₁) :
    s.next ≤ s₁.next := by
  cases hp : s.ps with
  | Idle =>
    rcases step_idle_inv hp hs with ⟨_, h⟩ | ⟨_, h⟩ <;> subst h <;> simp
  | Pending =>
    rcases step_pending_inv hp hs with ⟨_, h⟩ | ⟨_, h⟩ |
      ⟨units, status, ret, _, _, _, hn, _⟩
    · subst h; simp
    · subst h; simp
    · omega
  | CancelRequested =>
    rcases step_cr_inv hp hs with ⟨units, ret, _, _, h⟩
    subst h; simp

theorem run_next_mono {tr : List (Event α)} {s s' : MState}
    (hr : run gen s tr = some s') : s.next ≤ s'.next := by
  induction tr generalizing s with
  | nil => simp [run] at hr; simp [hr]
  | cons e tr ih =>
    rw [run_cons, Option.bind_eq_some] at hr
    rcases hr with ⟨s₁, hs, hr⟩
    exact le_trans (step_next_mono hs) (ih hr)

theorem idle_no_callbacks {tr : List (Event α)} {s s' : MState}
    (hps : s.ps = PState.Idle) (hr : run gen s tr = some s')
    (hget : Event.getOk ∉ tr) : callbackCount tr = 0 := by
  induction tr generalizing s with
  | nil => rfl
  | cons e tr ih =>
    rw [run_cons, Option.bind_eq_some] at hr
    rcases hr with ⟨s₁, hs, hr⟩
    rcases step_idle_inv hps hs with ⟨he, _⟩ | ⟨he, h₁⟩
    · exact absurd (he ▸ List.mem_cons_self e tr) hget
    · have hcb : isCallback e = false := by
        rcases he with he | he | he <;> subst he <;> rfl
      have := ih (s := s₁) (by rw [h₁]) hr (fun hm => hget (List.mem_cons_of_mem _ hm))
      simp [callbackCount, hcb, this]

theorem cr_resolves_by_callback {tr : List (Event α)} {s s' : MState}
    (hps : s.ps = PState.CancelRequested) (hr : run gen s tr = some s')
    (hres : s'.ps ≠ PState.CancelRequested) : 1 ≤ callbackCount tr := by
  cases tr with
  | nil =>
    simp [run] at hr
    rw [hr] at hps
    exact absurd hps hres
  | cons e tr =>
    rw [run_cons, Option.bind_eq_some] at hr
    rcases hr with ⟨s₁, hs, _⟩
    rcases step_cr_inv hps hs with ⟨units, ret, he, _, _⟩
    subst he
    simp [callbackCount, isCallback]

theorem pending_resolve_callback {tr : List (Event α)} {s s' : MState}
    (hps : s.ps = PState.Pending) (hr : run gen s tr = some s')
    (hidle : s'.ps = PState.Idle) (hcan : Event.cancelOk ∉ tr) :
    1 ≤ callbackCount tr := by
  induction tr generalizing s with
  | nil =>
    simp [run] at hr
    rw [hr, hidle] at hps
    exact absurd hps (by simp)
  | cons e tr ih =>
    rw [run_cons, Option.bind_eq_some] at hr
    rcases hr with ⟨s₁, hs, hr⟩
    rcases step_pending_inv hps hs with ⟨he, _⟩ | ⟨_, h₁⟩ |
      ⟨units, status, ret, he, _, _, _, _⟩
    · exact absurd (he ▸ List.mem_cons_self e tr) hcan
    · have h1 : 1 ≤ callbackCount tr :=
        cr_resolves_by_callback (s := s₁) (by rw [h₁]) hr (by rw [hidle]; simp)
      simp only [callbackCount]
      omega
    · subst he
      simp [callbackCount, isCallback]

theorem step_callback_idle {s : MState} {units : List α} {status : ReturnCode}
    {ret : Continue} (hps : s.ps = PState.Idle) :
    step gen s (Event.callback units status ret) = none := by
  simp [step, hps]

theorem step_callback_inv {s s₁ : MState} {units : List α} {status : ReturnCode}
    {ret : Continue} (hs : step gen s (Event.callback units status ret) = some s₁) :
    units = genSeg gen s.next units.length ∧ s₁.next = s.next + units.length := by
  cases hp : s.ps with
  | Idle => rw [step_callback_idle hp] at hs; exact absurd hs (by simp)
  | Pending =>
    rcases step_pending_inv hp hs with ⟨he, _⟩ | ⟨he, _⟩ |
      ⟨u, st, r, he, _, hseg, hn, _⟩
    · exact absurd he (by simp)
    · exact absurd he (by simp)
    · cases he
      exact ⟨hseg, hn⟩
  | CancelRequested =>
    rcases step_cr_inv hp hs with ⟨u, r, he, hseg, h₁⟩
    cases he
    exact ⟨hseg, by rw [h₁]⟩

theorem step_noncallback_next {s s₁ : MState} {e : Event α}
    (hcb : isCallback e = false) (hs : step gen s e = some s₁) :
    s₁.next = s.next := by
  cases hp : s.ps with
  | Idle =>
    rcases step_idle_inv hp hs with ⟨_, h⟩ | ⟨_, h⟩ <;> subst h <;> rfl
  | Pending =>
    rcases step_pending_inv hp hs with ⟨_, h⟩ | ⟨_, h⟩ |
      ⟨u, st, r, he, _, _, _, _⟩
    · subst h; rfl
    · subst h; rfl
    · subst he; exact absurd hcb (by simp [isCallback])
  | CancelRequested =>
    rcases step_cr_inv hp hs with ⟨u, r, he, _, _⟩
    subst he
    exact absurd hcb (by simp [isCallback])

theorem delivered_run {tr : List (Event α)} {s s' : MState}
    (hr : run gen s tr = some s') :
    deliveredUnits tr = genSeg gen s.next (s'.next - s.next) := by
  induction tr generalizing s with
  | nil =>
    simp [run] at hr
    rw [hr]
    simp [deliveredUnits, genSeg_nil]
  | cons e tr ih =>
    rw [run_cons, Option.bind_eq_some] at hr
    rcases hr with ⟨s₁, hs, hr⟩
    cases e with
    | callback units status ret =>
      rcases step_callback_inv hs with ⟨hseg, hn⟩
      have hmono : s₁.next ≤ s'.next := run_next_mono hr
      have hd : deliveredUnits (Event.callback units status ret :: tr) =
          units ++ deliveredUnits tr := rfl
      rw [hd, ih hr, hn]
      calc units ++ genSeg gen (s.next + units.length) (s'.next - (s.next + units.length))
          = genSeg gen s.next units.length ++
              genSeg gen (s.next + units.length) (s'.next - (s.next + units.length)) := by
            rw [← hseg]
        _ = genSeg gen s.next (units.length + (s'.next - (s.next + units.length))) :=
            genSeg_append gen s.next units.length _
        _ = genSeg gen s.next (s'.next - s.next) := by
            congr 1
            rw [hn] at hmono
            omega
    | getOk =>
      have := step_noncallback_next (e := Event.getOk) rfl hs
      have hd : deliveredUnits (Event.getOk :: tr) = deliveredUnits tr := rfl
      rw [hd, ih hr, this]
    | getFail =>
      have := step_noncallback_next (e := Event.getFail) rfl hs
      have hd : deliveredUnits (Event.getFail :: tr) = deliveredUnits tr := rfl
      rw [hd, ih hr, this]
    | getOff =>
      have := step_noncallback_next (e := Event.getOff) rfl hs
      have hd : deliveredUnits (Event.getOff :: tr) = deliveredUnits tr := rfl
      rw [hd, ih hr, this]
    | cancelOk =>
      have := step_noncallback_next (e := Event.cancelOk) rfl hs
      have hd : deliveredUnits (Event.cancelOk :: tr) = deliveredUnits tr := rfl
      rw [hd, ih hr, this]
    | cancelFail =>
      have := step_noncallback_next (e := Event.cancelFail) rfl hs
      have hd : deliveredUnits (Event.cancelFail :: tr) = deliveredUnits tr := rfl
      rw [hd, ih hr, this]

theorem no_callback_of_count_zero {tr : List (Event α)} (h : callbackCount tr = 0)
    {u : List α} {st : ReturnCode} {r : Continue} : Event.callback u st r ∉ tr := by
  induction tr with
  | nil => simp
  | cons e tr ih =>
    simp only [callbackCount] at h
    intro hm
    rcases List.mem_cons.mp hm with hm | hm
    · subst hm
      simp [isCallback] at h
    · exact ih (by omega) hm

theorem cr_callbacks_le_one {tr : List (Event α)} {s s' : MState}
    (hps : s.ps = PState.CancelRequested) (hr : run gen s tr = some s')
    (hget : Event.getOk ∉ tr) : callbackCount tr ≤ 1 := by
  cases tr with
  | nil => simp [callbackCount]
  | cons e tr =>
    rw [run_cons, Option.bind_eq_some] at hr
    rcases hr with ⟨s₁, hs, hr⟩
    rcases step_cr_inv hps hs with ⟨units, ret, he, _, h₁⟩
    have h0 : callbackCount tr = 0 :=
      idle_no_callbacks (s := s₁) (by rw [h₁]) hr
        (fun hm => hget (List.mem_cons_of_mem _ hm))
    subst he
    simp [callbackCount, isCallback, h0]

theorem cr_callbacks_ecancel {tr : List (Event α)} {s s' : MState}
    (hps : s.ps = PState.CancelRequested) (hr : run gen s tr = some s')
    (hget : Event.getOk ∉ tr) {u : List α} {st : ReturnCode} {r : Continue}
    (hm : Event.callback u st r ∈ tr) : st = ReturnCode.ECANCEL := by
  cases tr with
  | nil => simp at hm
  | cons e tr =>
    rw [run_cons, Option.bind_eq_some] at hr
    rcases hr with ⟨s₁, hs, hr⟩
    rcases step_cr_inv hps hs with ⟨units, ret, he, _, h₁⟩
    subst he
    rcases List.mem_cons.mp hm with hm | hm
    · cases hm
      rfl
    · have h0 : callbackCount tr = 0 :=
        idle_no_callbacks (s := s₁) (by rw [h₁]) hr
          (fun hmm => hget (List.mem_cons_of_mem _ hmm))
      exact absurd hm (no_callback_of_count_zero h0)

theorem step_cancelOk_idle {s s₁ : MState}
    (hs : step gen s Event.cancelOk = some s₁) : s₁.ps = PState.Idle := by
  cases hp : s.ps with
  | Idle =>
    rcases step_idle_inv hp hs with ⟨he, _⟩ | ⟨_, h⟩
    · exact absurd he (by simp)
    · rw [h]
  | Pending =>
    rcases step_pending_inv hp hs with ⟨_, h⟩ | ⟨he, _⟩ |
      ⟨u, st, r, he, _, _, _, _⟩
    · rw [h]
    · exact absurd he (by simp)
    · exact absurd he (by simp)
  | CancelRequested =>
    rcases step_cr_inv hp hs with ⟨u, r, he, _, _⟩
    exact absurd he (by simp)

theorem step_done_idle {s s₁ : MState} {u : List α} {st : ReturnCode}
    (hs : step gen s (Event.callback u st Continue.Done) = some s₁) :
    s₁.ps = PState.Idle := by
  cases hp : s.ps with
  | Idle => rw [step_callback_idle hp] at hs; exact absurd hs (by simp)
  | Pending =>
    rcases step_pending_inv hp hs with ⟨he, _⟩ | ⟨he, _⟩ |
      ⟨u', st', r', he, _, _, _, hps₁⟩
    · exact absurd he (by simp)
    · exact absurd he (by simp)
    · cases he
      exact hps₁
  | CancelRequested =>
    rcases step_cr_inv hp hs with ⟨u', r', he, _, h₁⟩
    rw [h₁]

theorem callbacks_le_one_of_done {tr : List (Event α)} {s s' : MState}
    (hr : run gen s tr = some s')
    (hall : ∀ u st r, Event.callback u st r ∈ tr → r = Continue.Done)
    (hget : Event.getOk ∉ tr) : callbackCount tr ≤ 1 := by
  induction tr generalizing s with
  | nil => simp [callbackCount]
  | cons e tr ih =>
    rw [run_cons, Option.bind_eq_some] at hr
    rcases hr with ⟨s₁, hs, hr⟩
    have hget' : Event.getOk ∉ tr := fun hm => hget (List.mem_cons_of_mem _ hm)
    cases hp : s.ps with
    | Idle =>
      rcases step_idle_inv hp hs with ⟨he, _⟩ | ⟨he, h₁⟩
      · exact absurd (he ▸ List.mem_cons_self e tr) hget
      · have h0 : callbackCount tr = 0 :=
          idle_no_callbacks (s := s₁) (by rw [h₁]) hr hget'
        have hcb : isCallback e = false := by
          rcases he with he | he | he <;> subst he <;> rfl
        simp [callbackCount, hcb, h0]
    | Pending =>
      rcases step_pending_inv hp hs with ⟨he, h₁⟩ | ⟨he, h₁⟩ |
        ⟨u, st, r, he, _, _, _, hps₁⟩
      · have h0 : callbackCount tr = 0 :=
          idle_no_callbacks (s := s₁) (by rw [h₁]) hr hget'
        subst he
        simp [callbackCount, isCallback, h0]
      · have h1 : callbackCount tr ≤ 1 :=
          ih hr (fun u st r hm => hall u st r (List.mem_cons_of_mem _ hm)) hget'
        subst he
        simpa [callbackCount, isCallback] using h1
      · subst he
        have hdone : r = Continue.Done :=
          hall u st r (List.mem_cons_self _ tr)
        subst hdone
        have hidle : s₁.ps = PState.Idle := by
          simpa using hps₁
        have h0 : callbackCount tr = 0 := idle_no_callbacks hidle hr hget'
        simp [callbackCount, isCallback, h0]
    | CancelRequested =>
      rcases step_cr_inv hp hs with ⟨u, r, he, _, h₁⟩
      subst he
      have h0 : callbackCount tr = 0 :=
        idle_no_callbacks (s := s₁) (by rw [h₁]) hr hget'
      simp [callbackCount, isCallback, h0]

theorem callbacks_bounded {tr : List (Event α)} {s s' : MState}
    (hr : run gen s tr = some s') (hncr : s.ps ≠ PState.CancelRequested)
    (hnf : Event.cancelFail ∉ tr) :
    callbackCount tr + s.next ≤ s'.next ∧
      ∀ st r, Event.callback ([] : List α) st r ∉ tr := by
  induction tr generalizing s with
  | nil =>
    simp [run] at hr
    rw [hr]
    simp [callbackCount]
  | cons e tr ih =>
    rw [run_cons, Option.bind_eq_some] at hr
    rcases hr with ⟨s₁, hs, hr⟩
    have hnf' : Event.cancelFail ∉ tr := fun hm => hnf (List.mem_cons_of_mem _ hm)
    have hncr₁ : s₁.ps ≠ PState.CancelRequested := by
      intro hcr
      rcases step_enters_cr hs hcr with ⟨he, _⟩
      exact hnf (he ▸ List.mem_cons_self e tr)
    rcases ih hr hncr₁ hnf' with ⟨hcount, hne⟩
    cases e with
    | callback u st r =>
      have hp : s.ps = PState.Pending := by
        cases hps : s.ps with
        | Idle => rw [step_callback_idle hps] at hs; exact absurd hs (by simp)
        | Pending => rfl
        | CancelRequested => exact absurd hps hncr
      rcases step_pending_inv hp hs with ⟨he, _⟩ | ⟨he, _⟩ |
        ⟨u', st', r', he, hnil, _, hn, _⟩
      · exact absurd he (by simp)
      · exact absurd he (by simp)
      · cases he
        have hlen : 1 ≤ u.length := by
          cases u with
          | nil => exact absurd rfl hnil
          | cons a l => simp
        constructor
        · simp [callbackCount, isCallback]
          rw [hn] at hcount
          omega
        · intro st' r' hm
          rcases List.mem_cons.mp hm with hm | hm
          · cases hm
            exact absurd rfl hnil
          · exact hne st' r' hm
    | getOk =>
      have hnx := step_noncallback_next (e := Event.getOk) rfl hs
      refine ⟨?_, ?_⟩
      · simp [callbackCount, isCallback]
        omega
      · intro st r hm
        rcases List.mem_cons.mp hm with hm | hm
        · exact absurd hm (by simp)
        · exact hne st r hm
    | getFail =>
      have hnx := step_noncallback_next (e := Event.getFail) rfl hs
      refine ⟨?_, ?_⟩
      · simp [callbackCount, isCallback]
        omega
      · intro st r hm
        rcases List.mem_cons.mp hm with hm | hm
        · exact absurd hm (by simp)
        · exact hne st r hm
    | getOff =>
      have hnx := step_noncallback_next (e := Event.getOff) rfl hs
      refine ⟨?_, ?_⟩
      · simp [callbackCount, isCallback]
        omega
      · intro st r hm
        rcases List.mem_cons.mp hm with hm | hm
        · exact absurd hm (by simp)
        · exact hne st r hm
    | cancelOk =>
      have hnx := step_noncallback_next (e := Event.cancelOk) rfl hs
      refine ⟨?_, ?_⟩
      · simp [callbackCount, isCallback]
        omega
      · intro st r hm
        rcases List.mem_cons.mp hm with hm | hm
        · exact absurd hm (by simp)
        · exact hne st r hm
    | cancelFail =>
      exact absurd (List.mem_cons_self _ tr) hnf

end Lemmas

theorem genSeg_map {α β : Type} (f : α → β) (gen : Nat → α) (k n : Nat) :
    genSeg (fun i => f (gen i)) k n = (genSeg gen k n).map f := by
  simp [genSeg, List.map_map, Function.comp]

theorem step_map {α β : Type} [DecidableEq α] [DecidableEq β] (eqv : α ≃ β)
    (gen : Nat → α) (s : MState) (ev : Event α) :
    step (fun n => eqv (gen n)) s (Event.map (fun a => eqv a) ev) =
      step gen s ev := by
  have hinj : Function.Injective (List.map (fun a : α => eqv a)) :=
    List.map_injective_iff.mpr eqv.injective
  cases ev with
  | getOk => cases hp : s.ps <;> simp [step, Event.map, hp]
  | getFail => cases hp : s.ps <;> simp [step, Event.map, hp]
  | getOff => cases hp : s.ps <;> simp [step, Event.map, hp]
  | cancelOk => cases hp : s.ps <;> simp [step, Event.map, hp]
  | cancelFail => cases hp : s.ps <;> simp [step, Event.map, hp]
  | callback units status ret =>
    cases hp : s.ps with
    | Idle => simp [step, Event.map, hp]
    | Pending =>
      simp only [step, Event.map, hp]
      have hlen : (List.map (fun a : α => eqv a) units).length = units.length :=
        List.length_map _ _
      have hcond : (List.map (fun a : α => eqv a) units ≠ [] ∧
          List.map (fun a : α => eqv a) units =
            genSeg (fun n => eqv (gen n)) s.next
              (List.map (fun a : α => eqv a) units).length) ↔
          (units ≠ [] ∧ units = genSeg gen s.next units.length) := by
        rw [hlen, genSeg_map]
        constructor
        · rintro ⟨h1, h2⟩
          exact ⟨fun h => h1 (by simp [h]), hinj h2⟩
        · rintro ⟨h1, h2⟩
          exact ⟨by simpa using h1, by rw [← h2]⟩
      by_cases h : units ≠ [] ∧ units = genSeg gen s.next units.length
      · rw [if_pos h, if_pos (hcond.mpr h), hlen]
      · rw [if_neg h, if_neg (fun hc => h (hcond.mp hc))]
    | CancelRequested =>
      simp only [step, Event.map, hp]
      have hlen : (List.map (fun a : α => eqv a) units).length = units.length :=
        List.length_map _ _
      have hcond : (status = ReturnCode.ECANCEL ∧
          List.map (fun a : α => eqv a) units =
            genSeg (fun n => eqv (gen n)) s.next
              (List.map (fun a : α => eqv a) units).length) ↔
          (status = ReturnCode.ECANCEL ∧ units = genSeg gen s.next units.length) := by
        rw [hlen, genSeg_map]
        constructor
        · rintro ⟨h1, h2⟩
          exact ⟨h1, hinj h2⟩
        · rintro ⟨h1, h2⟩
          exact ⟨h1, by rw [← h2]⟩
      by_cases h : status = ReturnCode.ECANCEL ∧ units = genSeg gen s.next units.length
      · rw [if_pos h, if_pos (hcond.mpr h), hlen]
      · rw [if_neg h, if_neg (fun hc => h (hcond.mp hc))]

theorem run_map {α β : Type} [DecidableEq α] [DecidableEq β] (eqv : α ≃ β)
    (gen : Nat → α) (s : MState) (tr : List (Event α)) :
    run (fun n => eqv (gen n)) s (tr.map (Event.map (fun a => eqv a))) =
      run gen s tr := by
  induction tr generalizing s with
  | nil => rfl
  | cons e tr ih =>
    rw [List.map_cons, run_cons, run_cons, step_map eqv gen s e]
    cases step gen s e with
    | none => rfl
    | some s₁ => simpa using ih s₁

/-- C1: if `cancel()` returns failure while an acquisition is outstanding
(a `cancelFail` event taken from `Pending`), then along any continuation of
the execution that does not issue a new `get()`: at most one further
delivery callback occurs, every such callback carries the cancellation
status `ECANCEL`, exactly one such callback has occurred by the time the
request is resolved, and a final callback still carrying trailing entropy
units generated before the cancellation took effect is possible; since the
whole continuation holds at most one callback, no further callback occurs
after it. -/
theorem c1_cancel_failure_race {α : Type} [DecidableEq α] (gen : Nat → α)
    (s s₁ s' : MState) (tr : List (Event α))
    (hps : s.ps = PState.Pending)
    (hcf : step gen s Event.cancelFail = some s₁)
    (hr : run gen s₁ tr = some s')
    (hget : Event.getOk ∉ tr) :
    callbackCount tr ≤ 1 ∧
      (∀ u st r, Event.callback u st r ∈ tr → st = ReturnCode.ECANCEL) ∧
      (s'.ps ≠ PState.CancelRequested → callbackCount tr = 1) ∧
      (∃ u r s₂, u ≠ [] ∧
        step gen s₁ (Event.callback u ReturnCode.ECANCEL r) = some s₂) := by
  have hcr : s₁.ps = PState.CancelRequested := by
    simp only [step, hps] at hcf
    cases hcf
    rfl
  refine ⟨cr_callbacks_le_one hcr hr hget,
    fun u st r hm => cr_callbacks_ecancel hcr hr hget hm,
    fun hres => le_antisymm (cr_callbacks_le_one hcr hr hget)
      (cr_resolves_by_callback hcr hr hres), ?_⟩
  have hlen : (genSeg gen s₁.next 1).length = 1 := by simp [genSeg]
  refine ⟨genSeg gen s₁.next 1, Continue.Done,
    ⟨PState.Idle, s₁.next + 1⟩, by simp [genSeg], ?_⟩
  simp only [step, hcr, hlen]
  rw [if_pos ⟨trivial, trivial⟩]

/-- C1 witness: a concrete failed cancellation followed by its single
ECANCEL callback. -/
theorem c1_witness :
    callbackCount
      ([Event.callback [0] ReturnCode.ECANCEL Continue.Done] : List (Event Nat)) ≤ 1 :=
  (c1_cancel_failure_race (fun n => n) ⟨PState.Pending, 0⟩
    ⟨PState.CancelRequested, 0⟩ ⟨PState.Idle, 1⟩
    [Event.callback [0] ReturnCode.ECANCEL Continue.Done]
    rfl (by decide) (by decide) (by decide)).1

/-- C2: `get()` has exactly the three outcomes SUCCESS, FAIL and EOFF; a
successful `get` from idle starts a pending acquisition while the two
failure outcomes leave the source idle; as long as the source is idle and
no successful `get` occurs, zero delivery callbacks occur; and a pending
acquisition that resolves to idle without a successful cancel has received
at least one delivery callback. -/
theorem c2_get_outcomes {α : Type} [DecidableEq α] (gen : Nat → α) (s : MState) :
    (s.ps = PState.Idle →
      step gen s Event.getOk = some ⟨PState.Pending, s.next⟩ ∧
      step gen s Event.getFail = some ⟨PState.Idle, s.next⟩ ∧
      step gen s Event.getOff = some ⟨PState.Idle, s.next⟩) ∧
    (∀ e : Event α, ∀ rc, getOutcome e = some rc →
      rc = ReturnCode.SUCCESS ∨ rc = ReturnCode.FAIL ∨ rc = ReturnCode.EOFF) ∧
    (∀ tr s', s.ps = PState.Idle → run gen s tr = some s' →
      Event.getOk ∉ tr → callbackCount tr = 0) ∧
    (∀ tr s', s.ps = PState.Pending → run gen s tr = some s' →
      s'.ps = PState.Idle → Event.cancelOk ∉ tr → 1 ≤ callbackCount tr) := by
  refine ⟨fun h => ⟨by simp [step, h], by simp [step, h], by simp [step, h]⟩,
    fun e rc h => ?_,
    fun tr s' h hr hg => idle_no_callbacks h hr hg,
    fun tr s' h hr hi hc => pending_resolve_callback h hr hi hc⟩
  cases e <;> simp [getOutcome] at h <;> simp [h]

/-- C2 witness: a powered-off `get` and a failed `get` from idle trigger no
callback. -/
theorem c2_witness :
    step (fun n => n) (⟨PState.Idle, 0⟩ : MState) Event.getOk =
        some ⟨PState.Pending, 0⟩ ∧
      callbackCount ([Event.getOff, Event.getFail, Event.cancelOk] :
        List (Event Nat)) = 0 := by
  have h := c2_get_outcomes (fun n => n) (⟨PState.Idle, 0⟩ : MState)
  exact ⟨(h.1 rfl).1,
    h.2.2.1 [Event.getOff, Event.getFail, Event.cancelOk]
      ⟨PState.Idle, 0⟩ rfl (by decide) (by decide)⟩

/-- C3: after any successful `cancel()` no future delivery callback occurs
for the cancelled request (until a new `get()`), and `cancel()` issued
while the source is idle succeeds as a no-op: the failed-cancel outcome is
impossible there, the state is unchanged and no callback is triggered. -/
theorem c3_cancel_success {α : Type} [DecidableEq α] (gen : Nat → α) (s : MState) :
    (∀ s₁ tr s', step gen s Event.cancelOk = some s₁ →
      run gen s₁ tr = some s' → Event.getOk ∉ tr → callbackCount tr = 0) ∧
    (s.ps = PState.Idle →
      step gen s Event.cancelOk = some s ∧
      step gen s Event.cancelFail = none) := by
  constructor
  · intro s₁ tr s' hc hr hg
    exact idle_no_callbacks (step_cancelOk_idle hc) hr hg
  · intro h
    constructor
    · have hstep : step gen s Event.cancelOk = some ⟨PState.Idle, s.next⟩ := by
        simp [step, h]
      rw [hstep, ← h]
    · simp [step, h]

/-- C3 witness: a successful idle cancel is a silent no-op at a concrete
state. -/
theorem c3_witness :
    callbackCount ([Event.getOff] : List (Event Nat)) = 0 ∧
      step (fun n => n) (⟨PState.Idle, 5⟩ : MState) Event.cancelFail = none := by
  have h := c3_cancel_success (fun n => n) (⟨PState.Idle, 5⟩ : MState)
  exact ⟨h.1 ⟨PState.Idle, 5⟩ [Event.getOff] ⟨PState.Idle, 5⟩
      (by decide) (by decide) (by decide),
    (h.2 rfl).2⟩

/-- C4: once a delivery callback returns `Continue.Done`, no further
delivery callback occurs for that request: every continuation of the
execution that does not issue a new `get()` contains zero callbacks. -/
theorem c4_done_is_terminal {α : Type} [DecidableEq α] (gen : Nat → α)
    (s s₁ s' : MState) (u : List α) (st : ReturnCode) (tr : List (Event α))
    (hs : step gen s (Event.callback u st Continue.Done) = some s₁)
    (hr : run gen s₁ tr = some s') (hget : Event.getOk ∉ tr) :
    callbackCount tr = 0 :=
  idle_no_callbacks (step_done_idle hs) hr hget

/-- C4 witness: after a concrete `Done` callback a further failed `get`
produces no callback. -/
theorem c4_witness : callbackCount ([Event.getFail] : List (Event Nat)) = 0 :=
  c4_done_is_terminal (fun _ => 7) ⟨PState.Pending, 0⟩ ⟨PState.Idle, 1⟩
    ⟨PState.Idle, 1⟩ [7] ReturnCode.SUCCESS [Event.getFail]
    (by decide) (by decide) (by decide)

/-- C5: every source instance is a state machine over `Idle`, `Pending`
and `CancelRequested` with at most one outstanding request per state, and
every state change taken by the machine is one of the listed transitions:
Idle to Pending on successful `get`; Pending to Pending on a callback
returning `More`; Pending to Idle on a callback returning `Done` or on
successful `cancel`; Pending to CancelRequested on failed `cancel`;
CancelRequested to Idle on the final `ECANCEL`-status callback regardless
of its returned continuation signal.  The only remaining events (failed
`get` outcomes and the no-op idle `cancel`) take no transition: they leave
the state unchanged at `Idle`. -/
theorem c5_state_machine {α : Type} [DecidableEq α] (gen : Nat → α)
    (s s' : MState) (e : Event α) (hs : step gen s e = some s') :
    (∀ p : PState, outstandingRequests p ≤ 1) ∧
    ((s.ps = PState.Idle ∧ e = Event.getOk ∧ s'.ps = PState.Pending) ∨
     (s.ps = PState.Pending ∧
       (∃ u st, e = Event.callback u st Continue.More) ∧
       s'.ps = PState.Pending) ∨
     (s.ps = PState.Pending ∧
       (∃ u st, e = Event.callback u st Continue.Done) ∧
       s'.ps = PState.Idle) ∨
     (s.ps = PState.Pending ∧ e = Event.cancelOk ∧ s'.ps = PState.Idle) ∨
     (s.ps = PState.Pending ∧ e = Event.cancelFail ∧
       s'.ps = PState.CancelRequested) ∨
     (s.ps = PState.CancelRequested ∧
       (∃ u r, e = Event.callback u ReturnCode.ECANCEL r) ∧
       s'.ps = PState.Idle) ∨
     (s'.ps = s.ps ∧ s.ps = PState.Idle ∧
       (e = Event.getFail ∨ e = Event.getOff ∨ e = Event.cancelOk))) := by
  refine ⟨fun p => by cases p <;> simp [outstandingRequests], ?_⟩
  cases hp : s.ps with
  | Idle =>
    rcases step_idle_inv hp hs with ⟨he, h₁⟩ | ⟨he, h₁⟩
    · exact Or.inl ⟨rfl, he, by rw [h₁]⟩
    · exact Or.inr (Or.inr (Or.inr (Or.inr (Or.inr (Or.inr
        ⟨by rw [h₁], rfl, he⟩)))))
  | Pending =>
    rcases step_pending_inv hp hs with ⟨he, h₁⟩ | ⟨he, h₁⟩ |
      ⟨u, st, r, he, _, _, _, hps'⟩
    · exact Or.inr (Or.inr (Or.inr (Or.inl ⟨rfl, he, by rw [h₁]⟩)))
    · exact Or.inr (Or.inr (Or.inr (Or.inr (Or.inl ⟨rfl, he, by rw [h₁]⟩))))
    · cases r with
      | More =>
        exact Or.inr (Or.inl ⟨rfl, ⟨u, st, he⟩, by simpa using hps'⟩)
      | Done =>
        exact Or.inr (Or.inr (Or.inl ⟨rfl, ⟨u, st, he⟩, by simpa using hps'⟩))
  | CancelRequested =>
    rcases step_cr_inv hp hs with ⟨u, r, he, _, h₁⟩
    exact Or.inr (Or.inr (Or.inr (Or.inr (Or.inr (Or.inl
      ⟨rfl, ⟨u, r, he⟩, by rw [h₁]⟩)))))

/-- C5 witness: the state machine at a concrete transition serves at most
one outstanding request. -/
theorem c5_witness : outstandingRequests PState.Pending ≤ 1 :=
  (c5_state_machine (fun n => n) ⟨PState.Idle, 0⟩ ⟨PState.Pending, 0⟩
    Event.getOk (by decide)).1 PState.Pending

/-- C6: over any execution, the concatenation of the entropy units
observed across consecutive delivery callbacks is exactly the contiguous
segment of the source's generation order between the starting and final
delivery indices: no unit is skipped, duplicated or reordered; in
particular this holds for the callbacks serving a single request. -/
theorem c6_generation_order {α : Type} [DecidableEq α] (gen : Nat → α)
    (s s' : MState) (tr : List (Event α)) (hr : run gen s tr = some s') :
    deliveredUnits tr = genSeg gen s.next (s'.next - s.next) ∧
      (deliveredUnits tr).length = s'.next - s.next := by
  refine ⟨delivered_run hr, ?_⟩
  rw [delivered_run hr]
  simp [genSeg]

/-- C6 witness: a mock source generating 0,1,2,... delivers exactly
[0,1,2] across two consecutive callbacks of one request. -/
theorem c6_witness :
    deliveredUnits ([Event.callback [0, 1] ReturnCode.SUCCESS Continue.More,
      Event.callback [2] ReturnCode.SUCCESS Continue.Done] :
        List (Event Nat)) = genSeg (fun n => n) 0 3 :=
  (c6_generation_order (fun n => n) ⟨PState.Pending, 0⟩ ⟨PState.Idle, 3⟩
    [Event.callback [0, 1] ReturnCode.SUCCESS Continue.More,
      Event.callback [2] ReturnCode.SUCCESS Continue.Done]
    (by decide)).1

/-- C7: for a pending request and an execution issuing no new `get`:
if the consumer always returns `Done`, at most one delivery callback
occurs, and exactly one once the request resolves to idle without a
successful cancel; and in the absence of a failed cancel every delivery
callback carries at least one newly generated unit, so the number of
callbacks is bounded by the units the source delivers — in particular by
any bound on the source's available entropy — and no empty (spurious)
callback ever occurs. -/
theorem c7_continuation_contract {α : Type} [DecidableEq α] (gen : Nat → α)
    (s s' : MState) (tr : List (Event α)) (T : Nat)
    (hps : s.ps = PState.Pending) (hr : run gen s tr = some s')
    (hget : Event.getOk ∉ tr) :
    ((∀ u st r, Event.callback u st r ∈ tr → r = Continue.Done) →
      callbackCount tr ≤ 1 ∧
        (s'.ps = PState.Idle → Event.cancelOk ∉ tr → callbackCount tr = 1)) ∧
    (Event.cancelFail ∉ tr →
      callbackCount tr + s.next ≤ s'.next ∧
        (s'.next ≤ T → callbackCount tr ≤ T) ∧
        ∀ st r, Event.callback ([] : List α) st r ∉ tr) := by
  constructor
  · intro hall
    refine ⟨callbacks_le_one_of_done hr hall hget, fun hi hc =>
      le_antisymm (callbacks_le_one_of_done hr hall hget)
        (pending_resolve_callback hps hr hi hc)⟩
  · intro hnf
    rcases callbacks_bounded hr (by rw [hps]; simp) hnf with ⟨h1, h2⟩
    exact ⟨h1, fun hT => by omega, h2⟩

/-- C7 witness: an always-`Done` consumer receives exactly one callback
for a concrete request. -/
theorem c7_witness :
    callbackCount ([Event.callback [5] ReturnCode.SUCCESS Continue.Done] :
      List (Event Nat)) ≤ 1 :=
  ((c7_continuation_contract (fun _ => 5) ⟨PState.Pending, 0⟩ ⟨PState.Idle, 1⟩
      [Event.callback [5] ReturnCode.SUCCESS Continue.Done] 1
      rfl (by decide) (by decide)).1
    (by
      intro u st r hm
      have h := List.mem_singleton.mp hm
      injection h with h1 h2 h3)).1

/-- C8: the 32-bit and the 8-bit variant define the same protocol: the
transition system is one definition parametric in the entropy unit type,
and translating every delivered unit along any equivalence of unit types
(with the generation order translated accordingly) leaves every step and
every run of the machine literally unchanged, so any behaviour proved of
one width variant holds of the other under the substitution of the unit
type. -/
theorem c8_width_variants {α β : Type} [DecidableEq α] [DecidableEq β]
    (eqv : α ≃ β) (gen : Nat → α) (s : MState) (ev : Event α)
    (tr : List (Event α)) :
    step (fun n => eqv (gen n)) s (Event.map (fun a => eqv a) ev) =
        step gen s ev ∧
      run (fun n => eqv (gen n)) s (tr.map (Event.map (fun a => eqv a))) =
        run gen s tr :=
  ⟨step_map eqv gen s ev, run_map eqv gen s tr⟩

/-- C8 witness: the identity substitution of the unit type at a concrete
step. -/
theorem c8_witness :
    step (fun n => (Equiv.refl Nat) n) ⟨PState.Idle, 0⟩
        (Event.map (fun a => (Equiv.refl Nat) a) Event.getOk) =
      step (fun n => n) ⟨PState.Idle, 0⟩ Event.getOk :=
  (c8_width_variants (Equiv.refl Nat) (fun n => n) ⟨PState.Idle, 0⟩
    Event.getOk []).1

/-- C9: the continuation signal type `Continue` has exactly the two
distinct values `More` and `Done`, and its equality is decidable, so a
source can branch on the consumer's result without ambiguity. -/
theorem c9_continue_enum :
    Continue.More ≠ Continue.Done ∧
      (∀ c : Continue, c = Continue.More ∨ c = Continue.Done) ∧
      Nonempty (DecidableEq Continue) :=
  ⟨by decide, fun c => by cases c <;> simp, ⟨inferInstance⟩⟩

/-- C9 witness: the enumeration applied at the concrete value `Done`. -/
theorem c9_witness :
    Continue.Done = Continue.More ∨ Continue.Done = Continue.Done :=
  c9_continue_enum.2.1 Continue.Done

/-- C10: the doc-example client `EntropyTest::entropy_available` consumes
at most one element of its input iterator, returns `Done` exactly when the
iterator yields at least one element, and returns `More` exactly when the
iterator is exhausted. -/
theorem c10_entropy_test (entropy : List U32) (err : ReturnCode) :
    ((EntropyTest.entropy_available entropy err).1 = Continue.Done ↔
      entropy ≠ []) ∧
    ((EntropyTest.entropy_available entropy err).1 = Continue.More ↔
      entropy = []) ∧
    (EntropyTest.entropy_available entropy err).2 = entropy.tail ∧
    entropy.length - ((EntropyTest.entropy_available entropy err).2).length ≤ 1 := by
  cases entropy with
  | nil => simp [EntropyTest.entropy_available]
  | cons a l => simp [EntropyTest.entropy_available]

/-- C10 witness: on the empty iterator the example client consumes nothing
and keeps the iterator empty. -/
theorem c10_witness :
    (EntropyTest.entropy_available [] ReturnCode.SUCCESS).2 =
      List.tail ([] : List U32) :=
  (c10_entropy_test [] ReturnCode.SUCCESS).2.2.1

end Entropy
